import Mathlib

/-! # Terminal column width of code points (`wcwidth.h`)

A shallow embedding of `src/wcwidth.h`.

* `wchar_t` is the signed 32-bit type it is on Linux: a value `wc : Int`.
  The classifier `jquast_wcwidth` compares `wc` itself; only the two searches
  cast it to `uint32_t` (`toUcs`).
* A range table (`ZERO_WIDTH`, `WIDE_EASTASIAN`) is a list of pairs
  `(low, high)`; `table[i][0]` is the first component of the `i`-th pair and
  `table[i][1]` the second.  The two headers that declare the tables are not
  part of the sources, so the tables are parameters of every function.
* Reading an array outside its bounds is undefined behaviour in C++; the
  embedding makes it explicit: `readRange` answers `none`, and every function
  that reads a table returns an `Option`.
* `lbound`, `ubound` and `mid` are C `int`s, modelled as `Int` (tables of a
  few hundred ranges are far from the 32-bit limit); `/` on `int` truncates
  towards zero, which is `Int.tdiv`.
* In `jquast_wcswidth` the sequence is a list, the array the pointer `pwcs`
  refers to; reading past its end and overflowing the `int`s `width` and `i`
  are undefined behaviour as well (`none`).
-/

namespace Wcwidth

/-- A range table: the rows `{low, high}` of `ZERO_WIDTH` or `WIDE_EASTASIAN`. -/
abbrev RangeTable := List (Nat × Nat)

/-- The cast `static_cast<uint32_t>(wc)` of a (signed) `wchar_t`. -/
def toUcs (wc : Int) : Nat := (wc % 4294967296).toNat

/-- The array access `table[i]` with a C `int` index: `none` outside `0 .. N-1`. -/
def readRange (table : RangeTable) (i : Int) : Option (Nat × Nat) :=
  if 0 ≤ i then table[i.toNat]? else none

/-- Modelled from the spec: the declarations of `ZERO_WIDTH` and `WIDE_EASTASIAN`
(`wcwidth/table_zero.h`, `wcwidth/table_wide.h`) are not in the sources.  The
spec's data model makes a range a pair of unsigned 32-bit values and a table a
compiled-in constant array of ranges, so one row occupies 8 bytes. -/
def rangeBytes : Nat := 8

/-- The value of `sizeof(table)`: the size of the array object in bytes, that is
the number of rows times the size of one row. -/
def sizeofTable (table : RangeTable) : Nat := rangeBytes * table.length

/-- The `while (ubound >= lbound)` loop of `_bisearch_zero` together with the
final `return 0`, started in the state `(lbound, ubound)`. -/
def _bisearch_zero_loop (ZERO_WIDTH : RangeTable) (ucs : Nat) (lbound ubound : Int) :
    Option Int :=
  if h : ubound ≥ lbound then
    let mid := (lbound + ubound).tdiv 2
    match readRange ZERO_WIDTH mid with
    | none => none
    | some row =>
      if ucs > row.2 then
        _bisearch_zero_loop ZERO_WIDTH ucs (mid + 1) ubound
      else if ucs < row.1 then
        _bisearch_zero_loop ZERO_WIDTH ucs lbound (mid - 1)
      else
        some 1
  else
    some 0
termination_by (ubound - lbound + 1).toNat
decreasing_by
  all_goals
    have hm : lbound ≤ (lbound + ubound).tdiv 2 ∧ (lbound + ubound).tdiv 2 ≤ ubound := by
      rcases Int.le_total 0 (lbound + ubound) with hs | hs
      · rw [Int.tdiv_eq_ediv hs (by decide)]
        omega
      · have hn : 0 ≤ -(lbound + ubound) := by omega
        have e : (lbound + ubound).tdiv 2 = -((-(lbound + ubound)) / 2) := by
          rw [← Int.tdiv_eq_ediv hn (by decide), Int.neg_tdiv, Int.neg_neg]
        rw [e]
        omega
    omega

/-- The function `_bisearch_zero` of `wcwidth.h`, lines 68-89.  The fast-reject
test is `ucs < ZERO_WIDTH[0][0] || ucs > ZERO_WIDTH[ubound][1]`: the second
operand is evaluated only when the first is false. -/
def _bisearch_zero (ZERO_WIDTH : RangeTable) (wc : Int) : Option Int :=
  let ucs := toUcs wc
  let lbound : Int := 0
  let ubound : Int := (sizeofTable ZERO_WIDTH : Int) - 1
  match readRange ZERO_WIDTH 0 with
  | none => none
  | some first =>
    if ucs < first.1 then some 0
    else
      match readRange ZERO_WIDTH ubound with
      | none => none
      | some last =>
        if ucs > last.2 then some 0
        else _bisearch_zero_loop ZERO_WIDTH ucs lbound ubound

/-- The `while (ubound >= lbound)` loop of `_bisearch_wide` together with the
final `return 0`, started in the state `(lbound, ubound)`. -/
def _bisearch_wide_loop (WIDE_EASTASIAN : RangeTable) (ucs : Nat) (lbound ubound : Int) :
    Option Int :=
  if h : ubound ≥ lbound then
    let mid := (lbound + ubound).tdiv 2
    match readRange WIDE_EASTASIAN mid with
    | none => none
    | some row =>
      if ucs > row.2 then
        _bisearch_wide_loop WIDE_EASTASIAN ucs (mid + 1) ubound
      else if ucs < row.1 then
        _bisearch_wide_loop WIDE_EASTASIAN ucs lbound (mid - 1)
      else
        some 1
  else
    some 0
termination_by (ubound - lbound + 1).toNat
decreasing_by
  all_goals
    have hm : lbound ≤ (lbound + ubound).tdiv 2 ∧ (lbound + ubound).tdiv 2 ≤ ubound := by
      rcases Int.le_total 0 (lbound + ubound) with hs | hs
      · rw [Int.tdiv_eq_ediv hs (by decide)]
        omega
      · have hn : 0 ≤ -(lbound + ubound) := by omega
        have e : (lbound + ubound).tdiv 2 = -((-(lbound + ubound)) / 2) := by
          rw [← Int.tdiv_eq_ediv hn (by decide), Int.neg_tdiv, Int.neg_neg]
        rw [e]
        omega
    omega

/-- The function `_bisearch_wide` of `wcwidth.h`, lines 91-112. -/
def _bisearch_wide (WIDE_EASTASIAN : RangeTable) (wc : Int) : Option Int :=
  let ucs := toUcs wc
  let lbound : Int := 0
  let ubound : Int := (sizeofTable WIDE_EASTASIAN : Int) - 1
  match readRange WIDE_EASTASIAN 0 with
  | none => none
  | some first =>
    if ucs < first.1 then some 0
    else
      match readRange WIDE_EASTASIAN ubound with
      | none => none
      | some last =>
        if ucs > last.2 then some 0
        else _bisearch_wide_loop WIDE_EASTASIAN ucs lbound ubound

/-- The hand-coded zero-width test of `jquast_wcwidth`, lines 121-127. -/
def isZeroWidthException (wc : Int) : Prop :=
  wc = 0 ∨
  wc = 0x034F ∨
  (0x200B ≤ wc ∧ wc ≤ 0x200F) ∨
  wc = 0x2028 ∨
  wc = 0x2029 ∨
  (0x202A ≤ wc ∧ wc ≤ 0x202E) ∨
  (0x2060 ≤ wc ∧ wc ≤ 0x2063)

instance (wc : Int) : Decidable (isZeroWidthException wc) :=
  inferInstanceAs (Decidable (wc = 0 ∨ wc = 0x034F ∨ (0x200B ≤ wc ∧ wc ≤ 0x200F) ∨
    wc = 0x2028 ∨ wc = 0x2029 ∨ (0x202A ≤ wc ∧ wc ≤ 0x202E) ∨ (0x2060 ≤ wc ∧ wc ≤ 0x2063)))

/-- The C0/C1 control test of `jquast_wcwidth`, line 131. -/
def isControl (wc : Int) : Prop :=
  wc < 32 ∨ (0x07F ≤ wc ∧ wc < 0x0A0)

instance (wc : Int) : Decidable (isControl wc) :=
  inferInstanceAs (Decidable (wc < 32 ∨ (0x07F ≤ wc ∧ wc < 0x0A0)))

/-- The function `jquast_wcwidth` of `wcwidth.h`, lines 115-138.  A C `int` used
as a condition is true when it is not `0`. -/
def jquast_wcwidth (ZERO_WIDTH WIDE_EASTASIAN : RangeTable) (wc : Int) : Option Int :=
  if isZeroWidthException wc then some 0
  else if isControl wc then some (-1)
  else
    match _bisearch_zero ZERO_WIDTH wc with
    | none => none
    | some z =>
      if z ≠ 0 then some 0
      else
        match _bisearch_wide WIDE_EASTASIAN wc with
        | none => none
        | some w => some (1 + w)

/-- The brute-force linear scan of the spec's test: some range of the table has
`low <= c <= high`. -/
def linearScan (table : RangeTable) (c : Nat) : Bool :=
  table.any fun row => decide (row.1 ≤ c) && decide (c ≤ row.2)

/-- The table invariant of the spec: not empty, `low <= high` in every range,
and `ranges[i].high < ranges[i+1].low` for adjacent ranges. -/
def WellFormed (table : RangeTable) : Prop :=
  table ≠ [] ∧ (∀ row ∈ table, row.1 ≤ row.2) ∧
    List.Chain' (fun a b : Nat × Nat => a.2 < b.1) table

instance (table : RangeTable) : Decidable (WellFormed table) :=
  inferInstanceAs (Decidable (table ≠ [] ∧ (∀ row ∈ table, row.1 ≤ row.2) ∧
    List.Chain' (fun a b : Nat × Nat => a.2 < b.1) table))

/-- The largest value of the 32-bit C `int`. -/
def INT_MAX : Int := 2147483647

/-- The `for (int i = 0; i < n; ++i)` loop of `jquast_wcswidth` together with the
final `return width`, started in the state `(i, width)`.  `pwcs` is the array
the pointer refers to; reading it past its end, and overflowing the `int`s
`width` and `i`, is undefined behaviour (`none`). -/
def jquast_wcswidth_loop (ZERO_WIDTH WIDE_EASTASIAN : RangeTable) (pwcs : List Int)
    (n : Nat) (i : Nat) (width : Int) : Option Int :=
  if i < n then
    match pwcs[i]? with
    | none => none
    | some wc =>
      match jquast_wcwidth ZERO_WIDTH WIDE_EASTASIAN wc with
      | none => none
      | some wcw =>
        if wcw < 0 then some (-1)
        else if width + wcw > INT_MAX then none
        else if (i : Int) + 1 > INT_MAX then none
        else jquast_wcswidth_loop ZERO_WIDTH WIDE_EASTASIAN pwcs n (i + 1) (width + wcw)
  else some width
termination_by n - i

/-- The function `jquast_wcswidth` of `wcwidth.h`, lines 140-154. -/
def jquast_wcswidth (ZERO_WIDTH WIDE_EASTASIAN : RangeTable) (pwcs : List Int) (n : Nat) :
    Option Int :=
  jquast_wcswidth_loop ZERO_WIDTH WIDE_EASTASIAN pwcs n 0 0

/-- The signed `wchar_t` value of a 32-bit pattern (two's complement). -/
def toWchar (bits : Nat) : Int :=
  if bits < 2147483648 then (bits : Int) else (bits : Int) - 4294967296

/-- How one pass through `while (ubound >= lbound) { ... }` ends: at a `return`
(the `return 1` of the body, or the `return 0` behind the loop when the
condition is false), at a read outside the table, or with new bounds. -/
inductive LoopOutcome where
  | returned (value : Int)
  | outside
  | again (lbound ubound : Int)
  deriving DecidableEq

/-- One pass through the search loop from the state `(lbound, ubound)`; the
loops of `_bisearch_zero` and `_bisearch_wide` have the same text. -/
def bisearch_iteration (table : RangeTable) (ucs : Nat) (lbound ubound : Int) : LoopOutcome :=
  if ubound ≥ lbound then
    let mid := (lbound + ubound).tdiv 2
    match readRange table mid with
    | none => LoopOutcome.outside
    | some row =>
      if ucs > row.2 then LoopOutcome.again (mid + 1) ubound
      else if ucs < row.1 then LoopOutcome.again lbound (mid - 1)
      else LoopOutcome.returned 1
  else LoopOutcome.returned 0

/-- At most `passes` passes through the search loop: `none` when the loop has
not ended by then, otherwise the result of the loop. -/
def bisearch_run (table : RangeTable) (ucs : Nat) : Nat → Int → Int → Option (Option Int)
  | 0, _, _ => none
  | passes + 1, lbound, ubound =>
    match bisearch_iteration table ucs lbound ubound with
    | LoopOutcome.returned value => some (some value)
    | LoopOutcome.outside => some none
    | LoopOutcome.again lbound2 ubound2 => bisearch_run table ucs passes lbound2 ubound2

/-- The spec's "sum of CharWidth(s[i])" over a list of elements; an element
without a defined width counts as 0. -/
def sumOfWidths (Z W : RangeTable) (elements : List Int) : Int :=
  (elements.map fun wc => (jquast_wcwidth Z W wc).getD 0).sum

/-- Some element of the list has width -1. -/
def hasNonPrintable (Z W : RangeTable) (elements : List Int) : Bool :=
  elements.any fun wc => jquast_wcwidth Z W wc == some (-1)

/-- The spec's `RangeContains` (section 4.1), by its contract: whether the code
point falls inside any range of the table.  It is one primitive with the table
as a parameter. -/
def RangeContains (table : RangeTable) (codepoint : Nat) : Bool :=
  table.any fun range => decide (range.1 ≤ codepoint) && decide (codepoint ≤ range.2)

/-- An index at or beyond the number of rows is outside the table. -/
theorem readRange_eq_none_of_length_le (table : RangeTable) (i : Int)
    (h : (table.length : Int) ≤ i) : readRange table i = none := by
  unfold readRange
  split
  · apply List.getElem?_eq_none
    omega
  · rfl

/-- An index inside `0 .. N-1` reads the row at that position. -/
theorem readRange_eq_some (table : RangeTable) (i : Int) (h0 : 0 ≤ i)
    (h : i.toNat < table.length) : readRange table i = some (table[i.toNat]) := by
  unfold readRange
  rw [if_pos h0]
  exact List.getElem?_eq_getElem h

/-- The initial upper bound `sizeof(table) - 1` counts bytes, not rows: for a
table that is not empty it lies beyond the last row. -/
theorem readRange_initial_ubound (table : RangeTable) (h : table ≠ []) :
    readRange table ((sizeofTable table : Int) - 1) = none := by
  apply readRange_eq_none_of_length_le
  have hpos : 0 < table.length := List.length_pos.mpr h
  unfold sizeofTable rangeBytes
  push_cast
  omega

/-- Truncated division by two keeps the midpoint between the two bounds. -/
theorem mid_bounds (lbound ubound : Int) (h : ubound ≥ lbound) :
    lbound ≤ (lbound + ubound).tdiv 2 ∧ (lbound + ubound).tdiv 2 ≤ ubound := by
  rcases Int.le_total 0 (lbound + ubound) with hs | hs
  · rw [Int.tdiv_eq_ediv hs (by decide)]
    omega
  · have hneg : 0 ≤ -(lbound + ubound) := by omega
    have e : (lbound + ubound).tdiv 2 = -((-(lbound + ubound)) / 2) := by
      rw [← Int.tdiv_eq_ediv hneg (by decide), Int.neg_tdiv, Int.neg_neg]
    rw [e]
    omega

/-! ## The two searches are the same function of the table -/

/-- The loop of `_bisearch_wide` computes what the loop of `_bisearch_zero`
computes on the same table. -/
theorem bisearch_wide_loop_eq (table : RangeTable) (ucs : Nat) :
    ∀ (n : Nat) (lbound ubound : Int), (ubound - lbound + 1).toNat ≤ n →
      _bisearch_wide_loop table ucs lbound ubound =
        _bisearch_zero_loop table ucs lbound ubound := by
  intro n
  induction n with
  | zero =>
    intro lbound ubound hn
    rw [_bisearch_wide_loop, _bisearch_zero_loop]
    have : ¬ ubound ≥ lbound := by omega
    simp [this]
  | succ n ih =>
    intro lbound ubound hn
    rw [_bisearch_wide_loop, _bisearch_zero_loop]
    by_cases h : ubound ≥ lbound
    · have hm := mid_bounds lbound ubound h
      simp only [h, dite_true]
      cases readRange table ((lbound + ubound).tdiv 2) with
      | none => rfl
      | some row =>
        simp only
        rw [ih ((lbound + ubound).tdiv 2 + 1) ubound (by omega),
          ih lbound ((lbound + ubound).tdiv 2 - 1) (by omega)]
    · simp [h]

/-- On the same table `_bisearch_wide` and `_bisearch_zero` agree. -/
theorem bisearch_wide_eq_zero (table : RangeTable) (wc : Int) :
    _bisearch_wide table wc = _bisearch_zero table wc := by
  unfold _bisearch_wide _bisearch_zero
  simp only [bisearch_wide_loop_eq table (toUcs wc) _ _ _ (Nat.le_refl _)]

/-! ## What the loop returns -/

/-- The loop returns only `0` or `1`. -/
theorem bisearch_zero_loop_range (table : RangeTable) (ucs : Nat) :
    ∀ (n : Nat) (lbound ubound : Int) (r : Int), (ubound - lbound + 1).toNat ≤ n →
      _bisearch_zero_loop table ucs lbound ubound = some r → r = 0 ∨ r = 1 := by
  intro n
  induction n with
  | zero =>
    intro lbound ubound r hn hr
    rw [_bisearch_zero_loop] at hr
    have : ¬ ubound ≥ lbound := by omega
    simp [this] at hr
    exact Or.inl hr.symm
  | succ n ih =>
    intro lbound ubound r hn hr
    rw [_bisearch_zero_loop] at hr
    by_cases h : ubound ≥ lbound
    · have hm := mid_bounds lbound ubound h
      simp only [h, dite_true] at hr
      cases hrow : readRange table ((lbound + ubound).tdiv 2) with
      | none => simp [hrow] at hr
      | some row =>
        simp only [hrow] at hr
        split at hr
        · exact ih _ _ r (by omega) hr
        · split at hr
          · exact ih _ _ r (by omega) hr
          · exact Or.inr (Option.some.inj hr).symm
    · simp [h] at hr
      exact Or.inl hr.symm

/-- The search `_bisearch_zero` returns only `0` or `1`. -/
theorem bisearch_zero_range (table : RangeTable) (wc : Int) (r : Int)
    (h : _bisearch_zero table wc = some r) : r = 0 ∨ r = 1 := by
  unfold _bisearch_zero at h
  simp only at h
  split at h
  · exact absurd h (by simp)
  · split at h
    · exact Or.inl (Option.some.inj h).symm
    · split at h
      · exact absurd h (by simp)
      · split at h
        · exact Or.inl (Option.some.inj h).symm
        · exact bisearch_zero_loop_range table (toUcs wc) _ _ _ r (Nat.le_refl _) h

/-- The search `_bisearch_wide` returns only `0` or `1`. -/
theorem bisearch_wide_range (table : RangeTable) (wc : Int) (r : Int)
    (h : _bisearch_wide table wc = some r) : r = 0 ∨ r = 1 := by
  rw [bisearch_wide_eq_zero] at h
  exact bisearch_zero_range table wc r h

/-- Whenever `jquast_wcwidth` returns, the value is one of `-1`, `0`, `1`, `2`. -/
theorem jquast_wcwidth_range (Z W : RangeTable) (wc : Int) (v : Int)
    (h : jquast_wcwidth Z W wc = some v) : v = -1 ∨ v = 0 ∨ v = 1 ∨ v = 2 := by
  unfold jquast_wcwidth at h
  split at h
  · have := Option.some.inj h
    omega
  · split at h
    · have := Option.some.inj h
      omega
    · split at h
      · exact absurd h (by simp)
      · split at h
        · have := Option.some.inj h
          omega
        · split at h
          · exact absurd h (by simp)
          · next w hw =>
            have hv := Option.some.inj h
            rcases bisearch_wide_range W wc w hw with h0 | h1 <;> omega

/-! ## The loop on a well-formed table, started inside the table -/

/-- The linear scan succeeds exactly when some row contains the code point. -/
theorem linearScan_iff (table : RangeTable) (c : Nat) :
    linearScan table c = true ↔
      ∃ (i : Nat) (hi : i < table.length), table[i].1 ≤ c ∧ c ≤ table[i].2 := by
  unfold linearScan
  rw [List.any_eq_true]
  constructor
  · rintro ⟨row, hmem, hrow⟩
    obtain ⟨i, hi, rfl⟩ := List.mem_iff_getElem.mp hmem
    simp only [Bool.and_eq_true, decide_eq_true_eq] at hrow
    exact ⟨i, hi, hrow⟩
  · rintro ⟨i, hi, hrow⟩
    refine ⟨table[i], List.getElem_mem hi, ?_⟩
    simp only [Bool.and_eq_true, decide_eq_true_eq]
    exact hrow

/-- In a well-formed table every earlier row ends before every later row starts. -/
theorem wellFormed_sorted (table : RangeTable) (hwf : WellFormed table) :
    ∀ (j i : Nat) (hi : i < table.length) (hj : j < table.length), i < j →
      table[i].2 < table[j].1 := by
  obtain ⟨_, hle, hch⟩ := hwf
  rw [List.chain'_iff_get] at hch
  intro j
  induction j with
  | zero =>
    intro i hi hj hij
    omega
  | succ j ih =>
    intro i hi hj hij
    have hstep := hch j (by omega)
    simp only [List.get_eq_getElem] at hstep
    rcases Nat.lt_or_ge i j with hlt | hge
    · have h1 := ih i hi (by omega) hlt
      have h2 := hle table[j] (List.getElem_mem (by omega))
      omega
    · have hij2 : i = j := by omega
      subst hij2
      exact hstep

/-- Loop invariant of the search: when every row below `lbound` ends before
the code point and every row above `ubound` starts after it, the loop started
with both bounds inside the table returns the answer of the linear scan. -/
theorem bisearch_zero_loop_correct (table : RangeTable) (hwf : WellFormed table) (ucs : Nat) :
    ∀ (n : Nat) (lbound ubound : Int), (ubound - lbound + 1).toNat ≤ n →
      0 ≤ lbound → ubound < (table.length : Int) →
      (∀ (i : Nat) (hi : i < table.length), (i : Int) < lbound → table[i].2 < ucs) →
      (∀ (i : Nat) (hi : i < table.length), ubound < (i : Int) → ucs < table[i].1) →
      _bisearch_zero_loop table ucs lbound ubound =
        some (if linearScan table ucs = true then 1 else 0) := by
  intro n
  induction n with
  | zero =>
    intro lbound ubound hn hlb hub hlow hhigh
    rw [_bisearch_zero_loop]
    have hexit : ¬ ubound ≥ lbound := by omega
    have hscan : ¬ linearScan table ucs = true := by
      rw [linearScan_iff]
      rintro ⟨i, hi, h1, h2⟩
      rcases Int.lt_or_le (i : Int) lbound with hl | hl
      · have := hlow i hi hl
        omega
      · have := hhigh i hi (by omega)
        omega
    simp [hexit, hscan]
  | succ n ih =>
    intro lbound ubound hn hlb hub hlow hhigh
    rw [_bisearch_zero_loop]
    by_cases h : ubound ≥ lbound
    · have hm := mid_bounds lbound ubound h
      have hmid0 : 0 ≤ (lbound + ubound).tdiv 2 := by omega
      have hmidN : ((lbound + ubound).tdiv 2).toNat < table.length := by omega
      simp only [h, dite_true, readRange_eq_some table _ hmid0 hmidN]
      have hrowle := hwf.2.1 _ (List.getElem_mem hmidN)
      split
      · next hgt =>
        apply ih _ _ (by omega) (by omega) hub _ hhigh
        intro i hi hlt
        rcases Nat.lt_or_ge i ((lbound + ubound).tdiv 2).toNat with hl | hl
        · have := wellFormed_sorted table hwf _ i hi hmidN hl
          omega
        · have hieq : i = ((lbound + ubound).tdiv 2).toNat := by omega
          subst hieq
          omega
      · split
        · next hngt hlt =>
          apply ih _ _ (by omega) hlb (by omega) hlow
          intro i hi hgt
          rcases Nat.lt_or_ge ((lbound + ubound).tdiv 2).toNat i with hl | hl
          · have := wellFormed_sorted table hwf i _ hmidN hi hl
            omega
          · have hieq : i = ((lbound + ubound).tdiv 2).toNat := by omega
            subst hieq
            omega
        · next hngt hnlt =>
          have hscan : linearScan table ucs = true := by
            rw [linearScan_iff]
            exact ⟨_, hmidN, by omega, by omega⟩
          simp [hscan]
    · have hscan : ¬ linearScan table ucs = true := by
        rw [linearScan_iff]
        rintro ⟨i, hi, h1, h2⟩
        rcases Int.lt_or_le (i : Int) lbound with hl | hl
        · have := hlow i hi hl
          omega
        · have := hhigh i hi (by omega)
          omega
      simp [h, hscan]

/-- The loop of the search is right when it starts at the last row: on a
well-formed table, from `lbound = 0` and `ubound = N - 1` it returns `1` exactly
when the linear scan finds a row containing the code point. -/
theorem bisearch_zero_loop_from_last_row (table : RangeTable) (hwf : WellFormed table)
    (ucs : Nat) :
    _bisearch_zero_loop table ucs 0 ((table.length : Int) - 1) =
      some (if linearScan table ucs = true then 1 else 0) := by
  apply bisearch_zero_loop_correct table hwf ucs _ 0 _ (Nat.le_refl _) (Int.le_refl 0)
    (by omega)
  · intro i hi hlt
    omega
  · intro i hi hlt
    omega

/-! ## The searches as written: `ubound` starts at `sizeof(table) - 1` -/

/-- What `_bisearch_zero` does as written.  A code point below the first row is
rejected by the first operand of the fast-reject test; for every other code
point the second operand reads row `sizeof(table) - 1`, which is outside the
table, so the loop is never reached. -/
theorem bisearch_zero_eq (first : Nat × Nat) (rest : RangeTable) (wc : Int) :
    _bisearch_zero (first :: rest) wc = if toUcs wc < first.1 then some 0 else none := by
  have h0 : readRange (first :: rest) 0 = some first := by
    simp [readRange]
  have hub := readRange_initial_ubound (first :: rest) (List.cons_ne_nil first rest)
  unfold _bisearch_zero
  simp only [h0, hub]

/-- A code point below every row of a table that is not empty is rejected at once. -/
theorem bisearch_zero_below (table : RangeTable) (wc : Int) (hne : table ≠ [])
    (hlow : ∀ row ∈ table, toUcs wc < row.1) : _bisearch_zero table wc = some 0 := by
  cases table with
  | nil => exact absurd rfl hne
  | cons first rest =>
    rw [bisearch_zero_eq, if_pos (hlow first (List.mem_cons_self first rest))]

/-! ## The loop pass by pass -/

/-- A pass that goes round again has probed a midpoint between the bounds and
moved one bound past it, so `ubound - lbound` is strictly smaller afterwards. -/
theorem bisearch_iteration_again (table : RangeTable) (ucs : Nat) (lbound ubound lb2 ub2 : Int)
    (h : bisearch_iteration table ucs lbound ubound = LoopOutcome.again lb2 ub2) :
    lbound ≤ (lbound + ubound).tdiv 2 ∧ (lbound + ubound).tdiv 2 ≤ ubound ∧
      ((lb2 = (lbound + ubound).tdiv 2 + 1 ∧ ub2 = ubound) ∨
        (lb2 = lbound ∧ ub2 = (lbound + ubound).tdiv 2 - 1)) ∧
      ub2 - lb2 < ubound - lbound := by
  unfold bisearch_iteration at h
  by_cases hc : ubound ≥ lbound
  · have hm := mid_bounds lbound ubound hc
    simp only [hc, if_true] at h
    cases hrow : readRange table ((lbound + ubound).tdiv 2) with
    | none => simp [hrow] at h
    | some row =>
      simp only [hrow] at h
      split at h
      · injection h with h1 h2
        refine ⟨hm.1, hm.2, Or.inl ⟨h1.symm, h2.symm⟩, ?_⟩
        omega
      · split at h
        · injection h with h1 h2
          refine ⟨hm.1, hm.2, Or.inr ⟨h1.symm, h2.symm⟩, ?_⟩
          omega
        · exact absurd h (by simp)
  · simp [hc] at h

/-- The loop of `_bisearch_zero` is the pass repeated until it ends. -/
theorem bisearch_zero_loop_unfold (table : RangeTable) (ucs : Nat) (lbound ubound : Int) :
    _bisearch_zero_loop table ucs lbound ubound =
      match bisearch_iteration table ucs lbound ubound with
      | LoopOutcome.returned value => some value
      | LoopOutcome.outside => none
      | LoopOutcome.again lb2 ub2 => _bisearch_zero_loop table ucs lb2 ub2 := by
  rw [_bisearch_zero_loop]
  unfold bisearch_iteration
  by_cases hc : ubound ≥ lbound
  · simp only [hc, dite_true, if_true]
    cases readRange table ((lbound + ubound).tdiv 2) with
    | none => rfl
    | some row =>
      simp only
      split
      · rfl
      · split <;> rfl
  · simp [hc]

/-- With more passes allowed than `ubound - lbound + 1` the run ends, and its
result is the result of the loop. -/
theorem bisearch_run_eq_zero_loop (table : RangeTable) (ucs : Nat) :
    ∀ (passes : Nat) (lbound ubound : Int), (ubound - lbound + 1).toNat < passes →
      bisearch_run table ucs passes lbound ubound =
        some (_bisearch_zero_loop table ucs lbound ubound) := by
  intro passes
  induction passes with
  | zero =>
    intro lbound ubound h
    omega
  | succ passes ih =>
    intro lbound ubound h
    rw [bisearch_zero_loop_unfold]
    unfold bisearch_run
    cases hit : bisearch_iteration table ucs lbound ubound with
    | returned value => rfl
    | outside => rfl
    | again lb2 ub2 =>
      have hagain := bisearch_iteration_again table ucs lbound ubound lb2 ub2 hit
      simp only
      apply ih
      omega

/-- While both bounds are inside the table no read leaves it: the loop returns
`0` or `1`, whatever the rows contain. -/
theorem bisearch_zero_loop_in_table (table : RangeTable) (ucs : Nat) :
    ∀ (n : Nat) (lbound ubound : Int), (ubound - lbound + 1).toNat ≤ n →
      0 ≤ lbound → ubound < (table.length : Int) →
      _bisearch_zero_loop table ucs lbound ubound = some 0 ∨
        _bisearch_zero_loop table ucs lbound ubound = some 1 := by
  intro n
  induction n with
  | zero =>
    intro lbound ubound hn hlb hub
    rw [_bisearch_zero_loop]
    have hexit : ¬ ubound ≥ lbound := by omega
    simp [hexit]
  | succ n ih =>
    intro lbound ubound hn hlb hub
    rw [_bisearch_zero_loop]
    by_cases h : ubound ≥ lbound
    · have hm := mid_bounds lbound ubound h
      have hmid0 : 0 ≤ (lbound + ubound).tdiv 2 := by omega
      have hmidN : ((lbound + ubound).tdiv 2).toNat < table.length := by omega
      simp only [h, dite_true, readRange_eq_some table _ hmid0 hmidN]
      split
      · exact ih _ _ (by omega) (by omega) hub
      · split
        · exact ih _ _ (by omega) hlb (by omega)
        · exact Or.inr rfl
    · simp [h]

/-- As written, neither search ever answers `1`: the loop, the only place that
returns `1`, is never reached. -/
theorem bisearch_zero_ne_one (table : RangeTable) (wc : Int) :
    _bisearch_zero table wc ≠ some 1 := by
  cases table with
  | nil => simp [_bisearch_zero, readRange]
  | cons first rest =>
    rw [bisearch_zero_eq]
    split <;> decide

/-- As written, `jquast_wcwidth` never answers `2`, whatever the tables contain. -/
theorem jquast_wcwidth_ne_two (Z W : RangeTable) (wc : Int) :
    jquast_wcwidth Z W wc ≠ some 2 := by
  intro h
  unfold jquast_wcwidth at h
  split at h
  · exact absurd h (by decide)
  · split at h
    · exact absurd h (by decide)
    · split at h
      · exact absurd h (by simp)
      · split at h
        · exact absurd h (by decide)
        · split at h
          · exact absurd h (by simp)
          · next w hw =>
            have hv := Option.some.inj h
            have hw1 : w = 1 := by omega
            rw [bisearch_wide_eq_zero, hw1] at hw
            exact bisearch_zero_ne_one W wc hw

/-! ## The loop of `jquast_wcswidth`, one element at a time -/

/-- The loop ends with the accumulated width when `i < n` is false. -/
theorem wcswidth_loop_done (Z W : RangeTable) (pwcs : List Int) (n i : Nat) (width : Int)
    (h : ¬ i < n) : jquast_wcswidth_loop Z W pwcs n i width = some width := by
  rw [jquast_wcswidth_loop, if_neg h]

/-- An element whose width is not defined leaves the whole call without a result. -/
theorem wcswidth_loop_undefined (Z W : RangeTable) (pwcs : List Int) (n i : Nat) (width : Int)
    (wc : Int) (hi : i < n) (hread : pwcs[i]? = some wc) (hw : jquast_wcwidth Z W wc = none) :
    jquast_wcswidth_loop Z W pwcs n i width = none := by
  rw [jquast_wcswidth_loop, if_pos hi, hread]
  simp only [hw]

/-- A non-printable element ends the loop with `-1`. -/
theorem wcswidth_loop_nonprintable (Z W : RangeTable) (pwcs : List Int) (n i : Nat)
    (width : Int) (wc wcw : Int) (hi : i < n) (hread : pwcs[i]? = some wc)
    (hw : jquast_wcwidth Z W wc = some wcw) (hneg : wcw < 0) :
    jquast_wcswidth_loop Z W pwcs n i width = some (-1) := by
  rw [jquast_wcswidth_loop, if_pos hi, hread]
  simp only [hw, if_pos hneg]

/-- A printable element is added to the width and the loop goes on. -/
theorem wcswidth_loop_next (Z W : RangeTable) (pwcs : List Int) (n i : Nat) (width : Int)
    (wc wcw : Int) (hi : i < n) (hread : pwcs[i]? = some wc)
    (hw : jquast_wcwidth Z W wc = some wcw) (hpos : 0 ≤ wcw)
    (hsum : width + wcw ≤ INT_MAX) (hidx : (i : Int) + 1 ≤ INT_MAX) :
    jquast_wcswidth_loop Z W pwcs n i width =
      jquast_wcswidth_loop Z W pwcs n (i + 1) (width + wcw) := by
  rw [jquast_wcswidth_loop, if_pos hi, hread]
  simp only [hw]
  rw [if_neg (by omega), if_neg (by omega), if_neg (by omega)]

/-! ## The aggregator where every element has a defined width -/

/-- The loop of `jquast_wcswidth` over elements that all have a defined width:
from the state `(i, width)` it returns -1 when one of the remaining elements is
non-printable, and otherwise `width` plus the widths of the remaining elements. -/
theorem wcswidth_loop_defined (Z W : RangeTable) (pwcs : List Int) (n : Nat)
    (hn : n ≤ pwcs.length) (hsmall : n < 1073741824)
    (hdef : ∀ wc ∈ pwcs.take n, jquast_wcwidth Z W wc ≠ none) :
    ∀ (k i : Nat) (width : Int), n - i ≤ k → i ≤ n → 0 ≤ width → width ≤ 2 * (i : Int) →
      jquast_wcswidth_loop Z W pwcs n i width =
        some (if hasNonPrintable Z W ((pwcs.take n).drop i) = true then -1
          else width + sumOfWidths Z W ((pwcs.take n).drop i)) := by
  unfold hasNonPrintable sumOfWidths
  intro k
  induction k with
  | zero =>
    intro i width hk hi h0 h2
    have hnil : (pwcs.take n).drop i = [] := by
      apply List.drop_eq_nil_of_le
      rw [List.length_take]
      omega
    rw [wcswidth_loop_done Z W pwcs n i width (by omega), hnil]
    simp
  | succ k ih =>
    intro i width hk hi h0 h2
    by_cases hlt : i < n
    · have hlen : i < (pwcs.take n).length := by
        rw [List.length_take]
        omega
      have hcons := List.drop_eq_getElem_cons hlen
      have hipwcs : i < pwcs.length := by omega
      have helem : (pwcs.take n)[i] = pwcs[i] := List.getElem_take pwcs
      have hread : pwcs[i]? = some pwcs[i] := List.getElem?_eq_getElem hipwcs
      have hmem : pwcs[i] ∈ pwcs.take n := by
        rw [← helem]
        exact List.getElem_mem hlen
      cases hw : jquast_wcwidth Z W pwcs[i] with
      | none => exact absurd hw (hdef _ hmem)
      | some w =>
        have hr := jquast_wcwidth_range Z W _ w hw
        by_cases hneg : w < 0
        · have hw1 : w = -1 := by omega
          rw [wcswidth_loop_nonprintable Z W pwcs n i width _ w hlt hread hw hneg, hcons,
            helem]
          simp [hw, hw1]
        · have hINT : INT_MAX = 2147483647 := rfl
          rw [wcswidth_loop_next Z W pwcs n i width _ w hlt hread hw (by omega)
            (by omega) (by omega), ih (i + 1) (width + w) (by omega) (by omega) (by omega)
            (by push_cast; omega), hcons, helem]
          have hne : (some w == some (-1 : Int)) = false := by
            simp
            omega
          simp only [List.any_cons, hw, hne, Bool.false_or, List.map_cons, List.sum_cons,
            Option.getD_some]
          congr 1
          split <;> first | rfl | omega
    · have hnil : (pwcs.take n).drop i = [] := by
        apply List.drop_eq_nil_of_le
        rw [List.length_take]
        omega
      rw [wcswidth_loop_done Z W pwcs n i width hlt, hnil]
      simp

/-- The function `jquast_wcswidth` over elements that all have a defined width. -/
theorem jquast_wcswidth_defined (Z W : RangeTable) (pwcs : List Int) (n : Nat)
    (hn : n ≤ pwcs.length) (hsmall : n < 1073741824)
    (hdef : ∀ wc ∈ pwcs.take n, jquast_wcwidth Z W wc ≠ none) :
    jquast_wcswidth Z W pwcs n =
      some (if hasNonPrintable Z W (pwcs.take n) = true then -1
        else sumOfWidths Z W (pwcs.take n)) := by
  unfold jquast_wcswidth
  rw [wcswidth_loop_defined Z W pwcs n hn hsmall hdef n 0 0 (by omega) (by omega)
    (Int.le_refl 0) (by omega)]
  simp

/-- The widths of printable elements add up to a value in `0 .. 2 * length`. -/
theorem sumOfWidths_bounds (Z W : RangeTable) (elements : List Int)
    (hdef : ∀ wc ∈ elements, jquast_wcwidth Z W wc ≠ none)
    (hprint : hasNonPrintable Z W elements = false) :
    0 ≤ sumOfWidths Z W elements ∧ sumOfWidths Z W elements ≤ 2 * (elements.length : Int) := by
  induction elements with
  | nil => simp [sumOfWidths]
  | cons wc rest ih =>
    unfold hasNonPrintable at hprint
    rw [List.any_cons, Bool.or_eq_false_iff] at hprint
    have hrest := ih (fun x hx => hdef x (List.mem_cons_of_mem wc hx)) hprint.2
    cases hw : jquast_wcwidth Z W wc with
    | none => exact absurd hw (hdef wc (List.mem_cons_self wc rest))
    | some w =>
      have hr := jquast_wcwidth_range Z W wc w hw
      have hne : w ≠ -1 := by
        intro h1
        rw [hw, h1] at hprint
        exact absurd hprint.1 (by decide)
      have hcons : sumOfWidths Z W (wc :: rest) = w + sumOfWidths Z W rest := by
        simp [sumOfWidths, hw]
      rw [hcons, List.length_cons]
      push_cast
      omega

/-- The aggregator is additive: when every one of the first `n` elements has a
defined width other than -1, the result is the sum of these widths. -/
theorem jquast_wcswidth_additive (Z W : RangeTable) (pwcs : List Int) (n : Nat)
    (hn : n ≤ pwcs.length) (hsmall : n < 1073741824)
    (hwidths : ∀ wc ∈ pwcs.take n, ∃ w, jquast_wcwidth Z W wc = some w ∧ w ≠ -1) :
    jquast_wcswidth Z W pwcs n = some (sumOfWidths Z W (pwcs.take n)) := by
  have hdef : ∀ wc ∈ pwcs.take n, jquast_wcwidth Z W wc ≠ none := by
    intro wc hwc h
    obtain ⟨w, hw, _⟩ := hwidths wc hwc
    rw [hw] at h
    exact absurd h (by simp)
  have hprint : hasNonPrintable Z W (pwcs.take n) = false := by
    unfold hasNonPrintable
    rw [List.any_eq_false]
    intro wc hwc h
    obtain ⟨w, hw, hne⟩ := hwidths wc hwc
    rw [hw] at h
    simp at h
    exact hne h
  rw [jquast_wcswidth_defined Z W pwcs n hn hsmall hdef, hprint]
  simp

/-- The aggregator short-circuits: a non-printable element at index `k < n`
gives -1 when the elements before it have defined widths. -/
theorem jquast_wcswidth_short_circuit (Z W : RangeTable) (pwcs : List Int) (n k : Nat)
    (hsmall : n < 1073741824) (hk : k < n) (hkl : k < pwcs.length)
    (hkw : jquast_wcwidth Z W pwcs[k] = some (-1))
    (hbefore : ∀ (j : Nat) (hj : j < pwcs.length), j < k → jquast_wcwidth Z W pwcs[j] ≠ none) :
    jquast_wcswidth Z W pwcs n = some (-1) := by
  have hloop : ∀ (d i : Nat) (width : Int), k - i ≤ d → i ≤ k → 0 ≤ width →
      width ≤ 2 * (i : Int) → jquast_wcswidth_loop Z W pwcs n i width = some (-1) := by
    intro d
    induction d with
    | zero =>
      intro i width hd hi h0 h2
      have hik : i = k := by omega
      subst hik
      exact wcswidth_loop_nonprintable Z W pwcs n i width _ (-1) hk
        (List.getElem?_eq_getElem hkl) hkw (by decide)
    | succ d ih =>
      intro i width hd hi h0 h2
      rcases Nat.lt_or_ge i k with hlt | hge
      · have hil : i < pwcs.length := by omega
        cases hw : jquast_wcwidth Z W pwcs[i] with
        | none => exact absurd hw (hbefore i hil hlt)
        | some w =>
          have hr := jquast_wcwidth_range Z W _ w hw
          have hINT : INT_MAX = 2147483647 := rfl
          by_cases hneg : w < 0
          · exact wcswidth_loop_nonprintable Z W pwcs n i width _ w (by omega)
              (List.getElem?_eq_getElem hil) hw hneg
          · rw [wcswidth_loop_next Z W pwcs n i width _ w (by omega)
              (List.getElem?_eq_getElem hil) hw (by omega) (by omega) (by omega)]
            exact ih (i + 1) (width + w) (by omega) (by omega) (by omega)
              (by push_cast; omega)
      · have hik : i = k := by omega
        subst hik
        exact wcswidth_loop_nonprintable Z W pwcs n i width _ (-1) hk
          (List.getElem?_eq_getElem hkl) hkw (by decide)
  exact hloop k 0 0 (by omega) (by omega) (Int.le_refl 0) (by omega)

/-- The aggregator stays in range: over elements with defined widths the
result is -1 or lies in `0 .. 2 * n`, and it is -1 exactly when one of the
first `n` elements has width -1. -/
theorem jquast_wcswidth_bounds (Z W : RangeTable) (pwcs : List Int) (n : Nat)
    (hn : n ≤ pwcs.length) (hsmall : n < 1073741824)
    (hdef : ∀ wc ∈ pwcs.take n, jquast_wcwidth Z W wc ≠ none) :
    ∃ r : Int, jquast_wcswidth Z W pwcs n = some r ∧
      (r = -1 ∨ (0 ≤ r ∧ r ≤ 2 * (n : Int))) ∧
      (r = -1 ↔ ∃ wc ∈ pwcs.take n, jquast_wcwidth Z W wc = some (-1)) := by
  have hlen : (pwcs.take n).length = n := by
    rw [List.length_take]
    omega
  rw [jquast_wcswidth_defined Z W pwcs n hn hsmall hdef]
  cases hnp : hasNonPrintable Z W (pwcs.take n) with
  | true =>
    refine ⟨-1, by simp, Or.inl rfl, ?_⟩
    unfold hasNonPrintable at hnp
    rw [List.any_eq_true] at hnp
    obtain ⟨wc, hwc, hp⟩ := hnp
    exact ⟨fun _ => ⟨wc, hwc, by simpa using hp⟩, fun _ => rfl⟩
  | false =>
    have hb := sumOfWidths_bounds Z W (pwcs.take n) hdef hnp
    rw [hlen] at hb
    refine ⟨sumOfWidths Z W (pwcs.take n), by simp, Or.inr hb, ?_⟩
    constructor
    · intro h
      omega
    · rintro ⟨wc, hwc, hp⟩
      unfold hasNonPrintable at hnp
      rw [List.any_eq_false] at hnp
      exact absurd (by simp [hp]) (hnp wc hwc)

/-- The aggregator is compositional: over elements with defined widths, the
width of `s` followed by `t` is -1 when the width of `s` or of `t` is -1, and the
sum of the two widths otherwise. -/
theorem jquast_wcswidth_append (Z W : RangeTable) (s t : List Int)
    (hsmall : s.length + t.length < 1073741824)
    (hdef : ∀ wc ∈ s ++ t, jquast_wcwidth Z W wc ≠ none) :
    ∃ a b : Int, jquast_wcswidth Z W s s.length = some a ∧
      jquast_wcswidth Z W t t.length = some b ∧
      jquast_wcswidth Z W (s ++ t) (s.length + t.length) =
        some (if a = -1 ∨ b = -1 then -1 else a + b) := by
  have hdefs : ∀ wc ∈ s, jquast_wcwidth Z W wc ≠ none :=
    fun wc h => hdef wc (List.mem_append_left t h)
  have hdeft : ∀ wc ∈ t, jquast_wcwidth Z W wc ≠ none :=
    fun wc h => hdef wc (List.mem_append_right s h)
  have hs := jquast_wcswidth_defined Z W s s.length (Nat.le_refl _) (by omega)
    (by rw [List.take_length]; exact hdefs)
  have ht := jquast_wcswidth_defined Z W t t.length (Nat.le_refl _) (by omega)
    (by rw [List.take_length]; exact hdeft)
  have hst := jquast_wcswidth_defined Z W (s ++ t) (s.length + t.length)
    (by rw [List.length_append]) hsmall
    (by rw [← List.length_append, List.take_length]; exact hdef)
  rw [List.take_length] at hs ht
  rw [← List.length_append, List.take_length] at hst
  have hnp : hasNonPrintable Z W (s ++ t) =
      (hasNonPrintable Z W s || hasNonPrintable Z W t) := by
    unfold hasNonPrintable
    rw [List.any_append]
  have hsum : sumOfWidths Z W (s ++ t) = sumOfWidths Z W s + sumOfWidths Z W t := by
    unfold sumOfWidths
    rw [List.map_append, List.sum_append]
  rw [← List.length_append, hst, hs, ht, hnp, hsum]
  cases hps : hasNonPrintable Z W s with
  | true =>
    exact ⟨_, _, rfl, rfl, by simp⟩
  | false =>
    have hbs := sumOfWidths_bounds Z W s hdefs hps
    cases hpt : hasNonPrintable Z W t with
    | true =>
      exact ⟨_, _, rfl, rfl, by simp⟩
    | false =>
      have hbt := sumOfWidths_bounds Z W t hdeft hpt
      refine ⟨_, _, rfl, rfl, ?_⟩
      have hcond : ¬ (sumOfWidths Z W s = -1 ∨ sumOfWidths Z W t = -1) := by omega
      simp [hcond]

/-! ## The loop from the state the code enters it in -/

/-- Claim C1 (the binary search returns 1 exactly when a linear scan finds a
range containing the code point), evaluated at the well-formed one-row table
`{{0x0300, 0x036F}}` and the code point U+0300, the low bound of the row: the
linear scan finds the row, while both searches read row `sizeof(table) - 1 = 7`
in the fast-reject test and so have no defined result. -/
theorem bisearch_low_bound_not_found :
    WellFormed [(0x0300, 0x036F)] ∧
    linearScan [(0x0300, 0x036F)] (toUcs 0x0300) = true ∧
    _bisearch_zero [(0x0300, 0x036F)] 0x0300 = none ∧
    _bisearch_wide [(0x0300, 0x036F)] 0x0300 = none := by
  refine ⟨by simp [WellFormed], by decide, by decide, by decide⟩

/-- Claim C2 (every index used by the lookup lies within `0 .. N-1`), evaluated
at the two-row table `{{0x0300, 0x036F}, {0x0483, 0x0489}}`: the initial upper
bound `sizeof(table) - 1` is 15, not the index 1 of the last row, the read of
row 15 is outside the table, and the fast-reject test performs that read for
the code point U+0483. -/
theorem initial_ubound_beyond_last_row :
    (sizeofTable [(0x0300, 0x036F), (0x0483, 0x0489)] : Int) - 1 = 15 ∧
    readRange [(0x0300, 0x036F), (0x0483, 0x0489)] 15 = none ∧
    _bisearch_zero [(0x0300, 0x036F), (0x0483, 0x0489)] 0x0483 = none ∧
    _bisearch_wide [(0x0300, 0x036F), (0x0483, 0x0489)] 0x0483 = none := by
  refine ⟨by decide, by decide, by decide, by decide⟩

/-- Claim C3 (`jquast_wcwidth` returns one of -1, 0, 1, 2 for every input and
never fails), evaluated at U+4E2D with the tables `{{0x0300, 0x036F}}` and
`{{0x1100, 0x115F}}`: the zero-width search reads outside its table, so the
call has no defined result. -/
theorem jquast_wcwidth_cjk_undefined :
    jquast_wcwidth [(0x0300, 0x036F)] [(0x1100, 0x115F)] 0x4E2D = none := by
  decide

/-- Claim C4: NUL, U+034F, U+200B..U+200F, U+2028, U+2029, U+202A..U+202E and
U+2060..U+2063 have width 0, whatever the two tables contain. -/
theorem jquast_wcwidth_exceptions_zero (Z W : RangeTable) (c : Int)
    (hc : c = 0 ∨ c = 0x034F ∨ (0x200B ≤ c ∧ c ≤ 0x200F) ∨ c = 0x2028 ∨ c = 0x2029 ∨
      (0x202A ≤ c ∧ c ≤ 0x202E) ∨ (0x2060 ≤ c ∧ c ≤ 0x2063)) :
    jquast_wcwidth Z W c = some 0 := by
  have hexc : isZeroWidthException c := hc
  unfold jquast_wcwidth
  rw [if_pos hexc]

/-- Claim C4 at NUL, with tables whose first rows are U+0300 and U+1100. -/
theorem jquast_wcwidth_exceptions_zero_witness :
    jquast_wcwidth [(0x0300, 0x036F)] [(0x1100, 0x115F)] 0 = some 0 :=
  jquast_wcwidth_exceptions_zero [(0x0300, 0x036F)] [(0x1100, 0x115F)] 0 (Or.inl rfl)

/-- Claim C5: a code point that is not a hand-coded zero-width exception and
passes the control test (`c < 32`, or `0x7F <= c < 0xA0`) has width -1 for
every content of the two tables, also when a row of a table contains it. -/
theorem jquast_wcwidth_control_precedes_tables (Z W : RangeTable) (c : Int)
    (hexc : ¬ isZeroWidthException c) (hctl : c < 32 ∨ (0x7F ≤ c ∧ c < 0xA0)) :
    jquast_wcwidth Z W c = some (-1) := by
  have hcontrol : isControl c := hctl
  unfold jquast_wcwidth
  rw [if_neg hexc, if_pos hcontrol]

/-- Claim C5 at BEL (U+0007), with both tables holding a row that contains it. -/
theorem jquast_wcwidth_control_precedes_tables_witness :
    ¬ isZeroWidthException 7 ∧ linearScan [(1, 0x9F)] (toUcs 7) = true ∧
      jquast_wcwidth [(1, 0x9F)] [(1, 0x9F)] 7 = some (-1) :=
  ⟨by decide, by decide,
    jquast_wcwidth_control_precedes_tables [(1, 0x9F)] [(1, 0x9F)] 7 (by decide) (by decide)⟩

/-- Claim C6 as stated fails at `c = 0`: NUL satisfies `0 <= c < 32`, and its
width is 0, not -1. -/
theorem jquast_wcwidth_nul_not_nonprintable :
    ¬ ∀ (Z W : RangeTable) (c : Int), (0 ≤ c ∧ c < 32) ∨ (0x7F ≤ c ∧ c < 0xA0) →
      jquast_wcwidth Z W c = some (-1) := by
  intro h
  have h0 := h [(0x0300, 0x036F)] [(0x1100, 0x115F)] 0 (by decide)
  revert h0
  decide

/-- Claim C6, amended: every code point `c` with `1 <= c < 32` or
`0x7F <= c < 0xA0` has width -1. -/
theorem jquast_wcwidth_controls_nonprintable (Z W : RangeTable) (c : Int)
    (hc : (1 ≤ c ∧ c < 32) ∨ (0x7F ≤ c ∧ c < 0xA0)) :
    jquast_wcwidth Z W c = some (-1) := by
  have hexc : ¬ isZeroWidthException c := by
    unfold isZeroWidthException
    omega
  have hctl : isControl c := by
    unfold isControl
    omega
  unfold jquast_wcwidth
  rw [if_neg hexc, if_pos hctl]

/-- Claim C6, amended, at DEL (U+007F). -/
theorem jquast_wcwidth_controls_nonprintable_witness :
    jquast_wcwidth [(0x0300, 0x036F)] [(0x1100, 0x115F)] 0x7F = some (-1) :=
  jquast_wcwidth_controls_nonprintable [(0x0300, 0x036F)] [(0x1100, 0x115F)] 0x7F
    (Or.inr ⟨by decide, by decide⟩)

/-- Claim C7 (every code point from U+007F through U+00A0, both ends included,
has width -1), evaluated at U+00A0: the control test of the code is
`wc < 0x0A0`, so for no content of the tables is the width of U+00A0 equal to
-1, and with tables whose first rows are U+0300 and U+1100 it is 1. -/
theorem jquast_wcwidth_no_break_space :
    (∀ Z W : RangeTable, jquast_wcwidth Z W 0xA0 ≠ some (-1)) ∧
    jquast_wcwidth [(0x0300, 0x036F)] [(0x1100, 0x115F)] 0xA0 = some 1 := by
  refine ⟨?_, by decide⟩
  intro Z W h
  unfold jquast_wcwidth at h
  rw [if_neg (by decide), if_neg (by decide)] at h
  split at h
  · exact absurd h (by simp)
  · split at h
    · exact absurd h (by decide)
    · split at h
      · exact absurd h (by simp)
      · next w hw =>
        have hv := Option.some.inj h
        rcases bisearch_wide_range W 0xA0 w hw with h0 | h1 <;> omega

/-- Claim C8 (a code point in a row of the zero-width table has width 0,
otherwise one in a row of the wide table has width 2), evaluated with the
well-formed tables `{{0x0300, 0x036F}}` and `{{0x1100, 0x115F}}`: U+0301 lies in
the zero-width row and U+1100 in the wide row only, neither is an exception
or a control, and for both the zero-width search reads outside its table. -/
theorem jquast_wcwidth_table_hit_undefined :
    WellFormed [(0x0300, 0x036F)] ∧ WellFormed [(0x1100, 0x115F)] ∧
    (¬ isZeroWidthException 0x0301 ∧ ¬ isControl 0x0301 ∧
      linearScan [(0x0300, 0x036F)] (toUcs 0x0301) = true ∧
      jquast_wcwidth [(0x0300, 0x036F)] [(0x1100, 0x115F)] 0x0301 = none) ∧
    (¬ isZeroWidthException 0x1100 ∧ ¬ isControl 0x1100 ∧
      linearScan [(0x0300, 0x036F)] (toUcs 0x1100) = false ∧
      linearScan [(0x1100, 0x115F)] (toUcs 0x1100) = true ∧
      jquast_wcwidth [(0x0300, 0x036F)] [(0x1100, 0x115F)] 0x1100 = none) := by
  refine ⟨by simp [WellFormed], by simp [WellFormed],
    ⟨by decide, by decide, by decide, by decide⟩,
    ⟨by decide, by decide, by decide, by decide, by decide⟩⟩

/-- Claim C9 (a code point that is no exception, no control and in no row of
either table has width 1), evaluated at U+0400 with the well-formed tables
`{{0x0300, 0x036F}}` and `{{0x1100, 0x115F}}`: no row contains U+0400, and the
zero-width search reads outside its table. -/
theorem jquast_wcwidth_default_undefined :
    WellFormed [(0x0300, 0x036F)] ∧ WellFormed [(0x1100, 0x115F)] ∧
    ¬ isZeroWidthException 0x0400 ∧ ¬ isControl 0x0400 ∧
    linearScan [(0x0300, 0x036F)] (toUcs 0x0400) = false ∧
    linearScan [(0x1100, 0x115F)] (toUcs 0x0400) = false ∧
    jquast_wcwidth [(0x0300, 0x036F)] [(0x1100, 0x115F)] 0x0400 = none := by
  refine ⟨by simp [WellFormed], by simp [WellFormed], by decide, by decide, by decide,
    by decide, by decide⟩

/-- Claim C10: SOFT HYPHEN (U+00AD) has width 1 with Unicode-derived tables,
that is tables which are not empty and whose rows all start above U+00AD (the
zero-width ranges start at U+0300, the wide ranges at U+1100). -/
theorem jquast_wcwidth_soft_hyphen (Z W : RangeTable) (hZ : Z ≠ []) (hW : W ≠ [])
    (hZlow : ∀ row ∈ Z, 0xAD < row.1) (hWlow : ∀ row ∈ W, 0xAD < row.1) :
    jquast_wcwidth Z W 0xAD = some 1 := by
  have hu : toUcs 0xAD = 0xAD := by decide
  have hz : _bisearch_zero Z 0xAD = some 0 :=
    bisearch_zero_below Z 0xAD hZ (by rw [hu]; exact hZlow)
  have hw : _bisearch_wide W 0xAD = some 0 := by
    rw [bisearch_wide_eq_zero]
    exact bisearch_zero_below W 0xAD hW (by rw [hu]; exact hWlow)
  unfold jquast_wcwidth
  rw [if_neg (by decide), if_neg (by decide), hz, hw]
  rfl

/-- Claim C10 with the first rows of the two tables. -/
theorem jquast_wcwidth_soft_hyphen_witness :
    jquast_wcwidth [(0x0300, 0x036F), (0x0483, 0x0489)] [(0x1100, 0x115F)] 0xAD = some 1 :=
  jquast_wcwidth_soft_hyphen [(0x0300, 0x036F), (0x0483, 0x0489)] [(0x1100, 0x115F)]
    (by decide) (by decide) (by decide) (by decide)

/-- Claim C14 (on the same table `_bisearch_zero` and `_bisearch_wide` return the
same value, that of one generic `RangeContains`), evaluated with both tables
equal to `{{0x0300, 0x036F}}` at U+0300: `RangeContains` answers true, while
each search reads row `sizeof(table) - 1 = 7` behind its own array, so neither
call has a defined result: no common returned value, and not the value of
`RangeContains`. -/
theorem bisearch_same_table_undefined :
    RangeContains [(0x0300, 0x036F)] (toUcs 0x0300) = true ∧
    readRange [(0x0300, 0x036F)] ((sizeofTable [(0x0300, 0x036F)] : Int) - 1) = none ∧
    _bisearch_zero [(0x0300, 0x036F)] 0x0300 = none ∧
    _bisearch_wide [(0x0300, 0x036F)] 0x0300 = none ∧
    _bisearch_zero [(0x0300, 0x036F)] 0x0300 ≠
      some (if RangeContains [(0x0300, 0x036F)] (toUcs 0x0300) = true then 1 else 0) ∧
    _bisearch_wide [(0x0300, 0x036F)] 0x0300 ≠
      some (if RangeContains [(0x0300, 0x036F)] (toUcs 0x0300) = true then 1 else 0) := by
  refine ⟨by decide, by decide, by decide, by decide, by decide, by decide⟩

/-- Claim C15: the tables never make a character non-printable: when
`jquast_wcwidth` returns -1 the input is no hand-coded zero-width exception and
passes the control test `wc < 32 || (0x7F <= wc && wc < 0xA0)`. -/
theorem jquast_wcwidth_nonprintable_is_control (Z W : RangeTable) (wc : Int)
    (h : jquast_wcwidth Z W wc = some (-1)) :
    ¬ isZeroWidthException wc ∧ (wc < 32 ∨ (0x7F ≤ wc ∧ wc < 0xA0)) := by
  unfold jquast_wcwidth at h
  split at h
  · exact absurd h (by decide)
  · next hexc =>
    split at h
    · next hctl => exact ⟨hexc, hctl⟩
    · split at h
      · exact absurd h (by simp)
      · split at h
        · exact absurd h (by decide)
        · split at h
          · exact absurd h (by simp)
          · next w hw =>
            have hv := Option.some.inj h
            rcases bisearch_wide_range W wc w hw with h0 | h1 <;> omega

/-- Claim C15 at ESC (U+001B), with tables whose first rows are U+0300 and U+1100. -/
theorem jquast_wcwidth_nonprintable_is_control_witness :
    jquast_wcwidth [(0x0300, 0x036F)] [(0x1100, 0x115F)] 0x1B = some (-1) ∧
      (¬ isZeroWidthException 0x1B ∧
        ((0x1B : Int) < 32 ∨ (0x7F ≤ (0x1B : Int) ∧ (0x1B : Int) < 0xA0))) :=
  ⟨by decide,
    jquast_wcwidth_nonprintable_is_control [(0x0300, 0x036F)] [(0x1100, 0x115F)] 0x1B
      (by decide)⟩

/-- Claim C18: with `wchar_t` signed, an input whose bit pattern lies in
0x80000000 .. 0xFFFFFFFF has a negative value, passes the test `wc < 32`, and
gets -1 for every content of the tables (empty tables included, so no table is
read); the cast to `uint32_t` would give the bit pattern back. -/
theorem jquast_wcwidth_negative (Z W : RangeTable) (bits : Nat)
    (hlo : 0x80000000 ≤ bits) (hhi : bits ≤ 0xFFFFFFFF) :
    toWchar bits < 0 ∧ toWchar bits < 32 ∧ toUcs (toWchar bits) = bits ∧
      jquast_wcwidth Z W (toWchar bits) = some (-1) := by
  have hval : toWchar bits = (bits : Int) - 4294967296 := by
    unfold toWchar
    rw [if_neg (by omega)]
  have hneg : toWchar bits < 0 := by omega
  have hexc : ¬ isZeroWidthException (toWchar bits) := by
    unfold isZeroWidthException
    omega
  have hctl : isControl (toWchar bits) := by
    unfold isControl
    omega
  refine ⟨hneg, by omega, ?_, ?_⟩
  · unfold toUcs
    rw [hval]
    omega
  · unfold jquast_wcwidth
    rw [if_neg hexc, if_pos hctl]

/-- Claim C18 at the bit pattern 0xFFFFFFFF (the value -1), with empty tables. -/
theorem jquast_wcwidth_negative_witness :
    toWchar 0xFFFFFFFF < 0 ∧ toWchar 0xFFFFFFFF < 32 ∧
      toUcs (toWchar 0xFFFFFFFF) = 0xFFFFFFFF ∧
      jquast_wcwidth [] [] (toWchar 0xFFFFFFFF) = some (-1) :=
  jquast_wcwidth_negative [] [] 0xFFFFFFFF (by decide) (by decide)

/-- Claim C11 (the width of a sequence without non-printable elements is the sum
of the widths of its elements; the sequence U+0041, U+4E2D, U+200B has widths
1, 2, 0 and total 3), evaluated with the tables `{{0x0300, 0x036F}}` and
`{{0x4E00, 0xA48C}}`: the wide row contains U+4E2D and the zero-width row
contains neither U+0041 nor U+4E2D; the widths of U+0041 and U+200B are 1 and
0, but the lookup for U+4E2D reads outside the zero-width table, so neither
its width nor the width of the sequence is defined; for no tables at all is
the width of U+4E2D equal to 2.  The width of zero elements is 0. -/
theorem jquast_wcswidth_scenario_undefined :
    linearScan [(0x4E00, 0xA48C)] (toUcs 0x4E2D) = true ∧
    linearScan [(0x0300, 0x036F)] (toUcs 0x41) = false ∧
    linearScan [(0x0300, 0x036F)] (toUcs 0x4E2D) = false ∧
    jquast_wcwidth [(0x0300, 0x036F)] [(0x4E00, 0xA48C)] 0x41 = some 1 ∧
    jquast_wcwidth [(0x0300, 0x036F)] [(0x4E00, 0xA48C)] 0x4E2D = none ∧
    jquast_wcwidth [(0x0300, 0x036F)] [(0x4E00, 0xA48C)] 0x200B = some 0 ∧
    jquast_wcswidth [(0x0300, 0x036F)] [(0x4E00, 0xA48C)] [0x41, 0x4E2D, 0x200B] 3 = none ∧
    (∀ Z W : RangeTable, jquast_wcwidth Z W 0x4E2D ≠ some 2) ∧
    (∀ (Z W : RangeTable) (pwcs : List Int), jquast_wcswidth Z W pwcs 0 = some 0) := by
  refine ⟨by decide, by decide, by decide, by decide, by decide, by decide, ?_,
    fun Z W => jquast_wcwidth_ne_two Z W 0x4E2D,
    fun Z W pwcs => wcswidth_loop_done Z W pwcs 0 0 0 (by omega)⟩
  unfold jquast_wcswidth
  rw [wcswidth_loop_next _ _ _ 3 0 0 0x41 1 (by decide) (by decide) (by decide) (by decide)
    (by decide) (by decide)]
  exact wcswidth_loop_undefined _ _ _ 3 1 _ 0x4E2D (by decide) (by decide) (by decide)

/-- Claim C12 (a non-printable element at an index `k < n` makes the width of
the sequence -1, whatever was accumulated before `k`), evaluated at the
sequence U+4E2D, U+0007 with `n = 2` and the tables `{{0x0300, 0x036F}}` and
`{{0x4E00, 0xA48C}}`: the element at `k = 1` has width -1, but the element
before it has no defined width, and the sequence has no defined width.  The
sequence U+0007 alone, `n = 1`, gives -1. -/
theorem jquast_wcswidth_short_circuit_undefined :
    jquast_wcwidth [(0x0300, 0x036F)] [(0x4E00, 0xA48C)] 0x0007 = some (-1) ∧
    jquast_wcswidth [(0x0300, 0x036F)] [(0x4E00, 0xA48C)] [0x4E2D, 0x0007] 2 = none ∧
    jquast_wcswidth [(0x0300, 0x036F)] [(0x4E00, 0xA48C)] [0x0007] 1 = some (-1) := by
  refine ⟨by decide, ?_, ?_⟩
  · exact wcswidth_loop_undefined _ _ _ 2 0 0 0x4E2D (by decide) (by decide) (by decide)
  · exact wcswidth_loop_nonprintable _ _ _ 1 0 0 0x0007 (-1) (by decide) (by decide)
      (by decide) (by decide)

/-- Claim C16 (the width of `n` elements is -1 or lies in `0 .. 2*n`, and is -1
exactly when some element has width -1), evaluated with the tables
`{{0x0300, 0x036F}}` and `{{0x4E00, 0xA48C}}`: the width of the one-element
sequence U+4E2D is not defined, so it is neither -1 nor a value in `0 .. 2`;
and the sequence U+4E2D, U+0007 has an element of width -1 without its width
being -1. -/
theorem jquast_wcswidth_bounds_undefined :
    jquast_wcswidth [(0x0300, 0x036F)] [(0x4E00, 0xA48C)] [0x4E2D] 1 = none ∧
    jquast_wcwidth [(0x0300, 0x036F)] [(0x4E00, 0xA48C)] 0x0007 = some (-1) ∧
    jquast_wcswidth [(0x0300, 0x036F)] [(0x4E00, 0xA48C)] [0x4E2D, 0x0007] 2 ≠ some (-1) := by
  refine ⟨?_, by decide, ?_⟩
  · exact wcswidth_loop_undefined _ _ _ 1 0 0 0x4E2D (by decide) (by decide) (by decide)
  · have h : jquast_wcswidth [(0x0300, 0x036F)] [(0x4E00, 0xA48C)] [0x4E2D, 0x0007] 2 = none :=
      wcswidth_loop_undefined _ _ _ 2 0 0 0x4E2D (by decide) (by decide) (by decide)
    rw [h]
    decide

/-- Claim C17 (the width of `s` followed by `t` is -1 when the width of `s` or
of `t` is -1, and the sum of the two widths otherwise), evaluated with the
tables `{{0x0300, 0x036F}}` and `{{0x4E00, 0xA48C}}` at `s` = U+4E2D and `t` =
U+0007: the width of `t` is -1, the width of `s` followed by `t` is not defined;
and at `s` = U+0041, `t` = U+4E2D the width of `s` is 1 while neither the
width of `t` nor that of `s` followed by `t` is defined. -/
theorem jquast_wcswidth_concat_undefined :
    jquast_wcswidth [(0x0300, 0x036F)] [(0x4E00, 0xA48C)] [0x0007] 1 = some (-1) ∧
    jquast_wcswidth [(0x0300, 0x036F)] [(0x4E00, 0xA48C)] [0x4E2D] 1 = none ∧
    jquast_wcswidth [(0x0300, 0x036F)] [(0x4E00, 0xA48C)] ([0x4E2D] ++ [0x0007]) 2 = none ∧
    jquast_wcswidth [(0x0300, 0x036F)] [(0x4E00, 0xA48C)] [0x41] 1 = some 1 ∧
    jquast_wcswidth [(0x0300, 0x036F)] [(0x4E00, 0xA48C)] ([0x41] ++ [0x4E2D]) 2 = none := by
  refine ⟨?_, ?_, ?_, ?_, ?_⟩
  · exact wcswidth_loop_nonprintable _ _ _ 1 0 0 0x0007 (-1) (by decide) (by decide)
      (by decide) (by decide)
  · exact wcswidth_loop_undefined _ _ _ 1 0 0 0x4E2D (by decide) (by decide) (by decide)
  · exact wcswidth_loop_undefined _ _ _ 2 0 0 0x4E2D (by decide) (by decide) (by decide)
  · unfold jquast_wcswidth
    rw [wcswidth_loop_next _ _ _ 1 0 0 0x41 1 (by decide) (by decide) (by decide) (by decide)
      (by decide) (by decide)]
    exact wcswidth_loop_done _ _ _ 1 1 _ (by decide)
  · unfold jquast_wcswidth
    rw [wcswidth_loop_next _ _ _ 2 0 0 0x41 1 (by decide) (by decide) (by decide) (by decide)
      (by decide) (by decide)]
    exact wcswidth_loop_undefined _ _ _ 2 1 _ 0x4E2D (by decide) (by decide) (by decide)

end Wcwidth
